import Mathlib

/-!
Verification of the pytricia extension module (`src/pytricia.c`), a
prefix-keyed lookup store over a path-compressed binary trie.  The Python
façade in `src/pytricia.c` is translated directly; the underlying trie
engine (`patricia.c` / `patricia.h`, which this repository vendors but
which is not under `src/`) is modelled from the specification, at the level
of its functional contract: a tree of real nodes keyed by the pair
(bits masked to bitlen, bitlen), with exact-match, best-match (LPM),
get-or-create insertion and removal.
-/

namespace Pytricia

/-- Decimal digit test on ASCII codes, matching C `isdigit` for the inputs
`atoi` and `inet_aton` look at. -/
def isDigitC (c : Char) : Bool := 48 ≤ c.toNat && c.toNat ≤ 57

/-- Numeric value of an ASCII decimal digit. -/
def charVal (c : Char) : Nat := c.toNat - 48

/-- ASCII character of a decimal digit. -/
def digitChar (d : Nat) : Char := Char.ofNat (48 + d)

/-- Digit-accumulation loop of C `atoi`: consume leading decimal digits,
stop at the first non-digit. -/
def atoiDigits : List Char → Nat → Nat
  | [], acc => acc
  | c :: cs, acc => if isDigitC c then atoiDigits cs (acc * 10 + charVal c) else acc

/-- C `atoi` as used on the text after the first `/` of a CIDR string:
an optional sign followed by leading decimal digits (no digits parse as 0). -/
def c_atoi : List Char → Int
  | '-' :: cs => -(atoiDigits cs 0 : Int)
  | '+' :: cs => (atoiDigits cs 0 : Int)
  | cs => (atoiDigits cs 0 : Int)

/-- Parse one dotted-quad component: non-empty, all decimal digits, value
at most 255. -/
def parseDec255 (cs : List Char) : Option Nat :=
  if cs.isEmpty then none
  else if cs.all isDigitC then
    let v := cs.foldl (fun a c => a * 10 + charVal c) 0
    if v ≤ 255 then some v else none
  else none

/-- Split a character list at every dot, keeping empty groups. -/
def splitOnDot : List Char → List (List Char)
  | [] => [[]]
  | c :: cs =>
    if c = '.' then [] :: splitOnDot cs
    else
      match splitOnDot cs with
      | [] => [[c]]
      | g :: gs => (c :: g) :: gs

/-- Modelled from the spec: the key codec's textual address parser (libc
`inet_aton`, outside this repository; §6 "text/integer → (bits buffer,
bitlen, family)"), restricted to the canonical dotted-quad decimal form
`a.b.c.d` with each component in 0..255.  Returns the 32-bit address value
read from the network-order bytes. -/
def inet_aton_model (cs : List Char) : Option Nat :=
  match splitOnDot cs with
  | [a, b, c, d] =>
    match parseDec255 a, parseDec255 b, parseDec255 c, parseDec255 d with
    | some va, some vb, some vc, some vd =>
      some (va * 16777216 + vb * 65536 + vc * 256 + vd)
    | _, _, _, _ => none
  | _ => none

/-- Render a byte in decimal with no leading zeros, as libc `inet_ntop`
does for each dotted-quad component. -/
def decByte (b : Nat) : List Char :=
  if b < 10 then [digitChar b]
  else if b < 100 then [digitChar (b / 10), digitChar (b % 10)]
  else [digitChar (b / 100), digitChar (b / 10 % 10), digitChar (b % 10)]

/-- Libc `inet_ntop` for AF_INET: dotted-quad text of a 32-bit address. -/
def inet_ntop_v4 (a : Nat) : List Char :=
  decByte (a / 16777216 % 256) ++ '.' :: (decByte (a / 65536 % 256) ++ '.' :: (decByte (a / 256 % 256) ++ '.' :: decByte (a % 256)))

/-- From src `inet_ntop_with_prefix` (pytricia.c lines 23-29): render the
address and append the literal text "/32". -/
def inet_ntop_with_pfx (a : Nat) : List Char :=
  inet_ntop_v4 a ++ ['/', '3', '2']

/-- A Python key handed to the module: a text key, an integer key, or a
value of any other type (which the codec rejects). -/
inductive PyKey where
  | str : String → PyKey
  | int : Nat → PyKey
  | other : PyKey
deriving DecidableEq

/-- Buffer size of the key C-string in src `convert_key_to_cstring`. -/
def ADDRSTRLEN : Nat := 32

/-- From src `convert_key_to_cstring` (pytricia.c lines 37-74): a text key
is copied (truncated to the 32-byte buffer), an integer key is put in
network byte order and rendered as dotted-quad text with "/32" appended,
and any other type is a failure (-1). -/
def convert_key_to_cstring : PyKey → Option (List Char)
  | .str s => some (s.toList.take ADDRSTRLEN)
  | .int n => some (inet_ntop_with_pfx (n % 4294967296))
  | .other => none

/-- Split at the first slash, as C `strchr(cidr, '/')` does: the part
before it and, when a slash exists, the part after it. -/
def breakSlash : List Char → List Char × Option (List Char)
  | [] => ([], none)
  | c :: cs =>
    if c = '/' then ([], some cs)
    else
      let r := breakSlash cs
      (c :: r.1, r.2)

/-- From src `parse_cidr` (pytricia.c lines 155-185): if the string has a
slash, the address is the text before it (truncated to 31 characters when
longer) and the mask length is `atoi` of the text after it, cast to
`unsigned short`; with no slash the whole string is the address and the
mask length is 32.  The address text goes through `inet_aton`. -/
def parse_cidr (cidr : List Char) : Option (Nat × Nat) :=
  match breakSlash cidr with
  | (_, none) => (inet_aton_model cidr).map (fun a => (a, 32))
  | (addr, some rest) =>
    let addr2 := if addr.length < 32 then addr else addr.take 31
    let masklen := ((c_atoi rest) % 65536).toNat
    (inet_aton_model addr2).map (fun a => (a, masklen))

/-- A prefix: 32-bit address value and bit length, as built by src
`make_prefix` (pytricia.c lines 135-149), which stores the address bytes
unmasked together with the given width. -/
abbrev Pfx := Nat × Nat

/-- From src `make_prefix`: package the parsed address and width. -/
def make_pfx (addr : Nat) (width : Nat) : Pfx := (addr, width)

/-- From src `pystr_to_prefix` (pytricia.c lines 187-201): `parse_cidr`
then `make_prefix`; failure of either is failure of the whole. -/
def pystr_to_pfx (cs : List Char) : Option Pfx :=
  (parse_cidr cs).map (fun p => make_pfx p.1 p.2)

/-- Mask a 32-bit address value to its leading `len` bits (bits past the
bit length are insignificant, spec §3). -/
def mask32 (a : Nat) (len : Nat) : Nat :=
  if len < 32 then a / 2 ^ (32 - len) * 2 ^ (32 - len) else a % 4294967296

/-- The identity of a stored prefix: bits masked to the bit length,
paired with the bit length (spec §3 invariant: one real node per
distinct such pair). -/
def pfxNorm (p : Pfx) : Pfx := (mask32 p.1 p.2, p.2)

/-- A stored prefix `e` covers a query `q` when its bit length is at most
the query's and the query's leading `e.2` bits equal the stored bits
(spec §4.1 find_best: "verify the node's full stored key matches the
query's leading node.bitlen bits"). -/
def covers (e : Pfx) (q : Pfx) : Bool :=
  e.2 ≤ q.2 && mask32 q.1 e.2 == e.1

/-- Modelled from the spec: the trie engine's state (`patricia_tree_t` of
patricia.c/h, not under src/).  §3-§4.1: the tree stores one real node per
distinct (bits masked to bitlen, bitlen) pair, each carrying a caller
value; `num_active_node` is the count of real nodes, maintained
incrementally on insert and remove (§4.1 count()); `maxbits` is fixed at
construction. -/
structure PTree (V : Type) where
  entries : List (Pfx × V)
  num_active_node : Nat
  maxbits : Nat
deriving DecidableEq

/-- Modelled from the spec: `New_Patricia` (patricia.c, not under src/)
returns an empty tree with the given maximum bit length and no real
nodes. -/
def emptyTree (V : Type) (maxbits : Nat) : PTree V := ⟨[], 0, maxbits⟩

/-- Modelled from the spec: `patricia_search_exact` (patricia.c, not under
src/); §4.1 find_exact: the real node whose (bits masked to bitlen,
bitlen) equals the query's, or absent. -/
def patricia_search_exact {V : Type} (t : PTree V) (p : Pfx) : Option (Pfx × V) :=
  t.entries.find? (fun e => e.1 == pfxNorm p)

/-- One step of the best-candidate scan: a longer bit length overrides a
previously remembered shorter one (spec §4.1 find_best). -/
def bestStep {V : Type} (acc : Option (Pfx × V)) (e : Pfx × V) : Option (Pfx × V) :=
  match acc with
  | none => some e
  | some a => some (if a.1.2 < e.1.2 then e else a)

/-- Pick the candidate of greatest bit length, scanning left to right. -/
def bestFold {V : Type} (l : List (Pfx × V)) : Option (Pfx × V) :=
  l.foldl bestStep none

/-- Modelled from the spec: `patricia_search_best` (patricia.c, not under
src/); §4.1 find_best: the most specific stored prefix covering the
queried address/prefix, or absent when none covers it. -/
def patricia_search_best {V : Type} (t : PTree V) (q : Pfx) : Option (Pfx × V) :=
  bestFold (t.entries.filter (fun e => covers e.1 q))

/-- Modelled from the spec: `make_and_lookup` / `patricia_lookup`
(patricia.c, not under src/); §4.1 insert and §6 insert_or_update:
get-or-create the real node for the key's (masked bits, bitlen) pair —
when the pair is already present the existing node is returned unchanged
and the caller overwrites its value in place; otherwise a new real node is
added and the incremental count grows by one. -/
def pat_insert {V : Type} (t : PTree V) (p : Pfx) (v : V) : PTree V :=
  if (t.entries.find? (fun e => e.1 == pfxNorm p)).isSome then
    ⟨t.entries.map (fun e => if e.1 == pfxNorm p then (e.1, v) else e),
     t.num_active_node, t.maxbits⟩
  else
    ⟨t.entries ++ [(pfxNorm p, v)], t.num_active_node + 1, t.maxbits⟩

/-- Modelled from the spec: `patricia_remove` (patricia.c, not under
src/); §4.1 remove: the real node for the pair is taken out (physically or
by demotion to glue), every other stored prefix is left undisturbed, and
the incremental count drops by one. -/
def patricia_remove {V : Type} (t : PTree V) (p : Pfx) : PTree V :=
  ⟨t.entries.filter (fun e => !(e.1 == pfxNorm p)),
   t.num_active_node - 1, t.maxbits⟩

/-- Python-level error kinds raised by the façade. -/
inductive PyErr where
  | ValueError
  | KeyError
deriving DecidableEq

deriving instance DecidableEq for Except

/-- From src `pytricia_init` (pytricia.c lines 98-119): the optional
maximum-bit-length argument defaults to 32; a value below 0 or above
`PATRICIA_MAXBITS` is a ValueError, otherwise an empty tree with that
maximum is created.  `PATRICIA_MAXBITS` is modelled from the spec
(patricia.h, not under src/): 128. -/
def PATRICIA_MAXBITS : Nat := 128

/-- From src `pytricia_init`: construction with an optional bit-length
argument (none models calling with no argument). -/
def pytricia_init (V : Type) (arg : Option Int) : Except PyErr (PTree V) :=
  let prefixlen := arg.getD 32
  if prefixlen < 0 ∨ (PATRICIA_MAXBITS : Int) < prefixlen then .error .ValueError
  else .ok (emptyTree V prefixlen.toNat)

/-- From src `pytricia_length` (pytricia.c lines 121-131): walk the whole
tree counting the real nodes (`PATRICIA_WALK` of patricia.h, modelled from
the spec §4.2, visits exactly the real nodes); in this model the entries
list holds exactly the real nodes, so the walk count is its length. -/
def pytricia_length {V : Type} (t : PTree V) : Nat := t.entries.length

/-- From src `pytricia_subscript` (pytricia.c lines 203-231): parse the
key (failure is ValueError), best-match search, absence is KeyError,
otherwise the stored value. -/
def pytricia_subscript {V : Type} (t : PTree V) (k : PyKey) : Except PyErr V :=
  match convert_key_to_cstring k with
  | none => .error .ValueError
  | some cs =>
    match pystr_to_pfx cs with
    | none => .error .ValueError
    | some p =>
      match patricia_search_best t p with
      | none => .error .KeyError
      | some e => .ok e.2

/-- From src `pytricia_internal_delete` (pytricia.c lines 233-264): parse
the key (failure is ValueError), exact-match search, absence is KeyError
with the tree untouched, otherwise remove the found node.  The pair
returned is the tree state after the call and the error raised, if any. -/
def pytricia_internal_delete {V : Type} (t : PTree V) (k : PyKey) :
    PTree V × Option PyErr :=
  match convert_key_to_cstring k with
  | none => (t, some .ValueError)
  | some cs =>
    match pystr_to_pfx cs with
    | none => (t, some .ValueError)
    | some p =>
      match patricia_search_exact t p with
      | none => (t, some .KeyError)
      | some _ => (patricia_remove t p, none)

/-- From src `pytricia_assign_subscript` (pytricia.c lines 266-290), in
the value-present case (a missing value makes the C function delegate to
delete): parse the key (failure is ValueError), get-or-create the node,
store the value at it. -/
def pytricia_assign_subscript {V : Type} (t : PTree V) (k : PyKey) (v : V) :
    PTree V × Option PyErr :=
  match convert_key_to_cstring k with
  | none => (t, some .ValueError)
  | some cs =>
    match pystr_to_pfx cs with
    | none => (t, some .ValueError)
    | some p => (pat_insert t p v, none)

/-- From src `pytricia_get` (pytricia.c lines 325-362): parse the key
(failure is ValueError), best-match search; on absence return the supplied
default if any, else Python None (modelled as `none`); on a hit return the
stored value. -/
def pytricia_get {V : Type} (t : PTree V) (k : PyKey) (defvalue : Option V) :
    Except PyErr (Option V) :=
  match convert_key_to_cstring k with
  | none => .error .ValueError
  | some cs =>
    match pystr_to_pfx cs with
    | none => .error .ValueError
    | some p =>
      match patricia_search_best t p with
      | none =>
        match defvalue with
        | some d => .ok (some d)
        | none => .ok none
      | some e => .ok (some e.2)

/-- From src `pytricia_contains` (pytricia.c lines 364-386): parse the key
(failure is ValueError, the C -1 return), best-match search, true iff some
stored prefix covers the key. -/
def pytricia_contains {V : Type} (t : PTree V) (k : PyKey) : Except PyErr Bool :=
  match convert_key_to_cstring k with
  | none => .error .ValueError
  | some cs =>
    match pystr_to_pfx cs with
    | none => .error .ValueError
    | some p =>
      match patricia_search_best t p with
      | some _ => .ok true
      | none => .ok false

/-- From src `pytricia_has_key` (pytricia.c lines 388-414): parse the key
(failure is ValueError), exact-match search, true iff the exact
(address, length) pair is stored. -/
def pytricia_has_key {V : Type} (t : PTree V) (k : PyKey) : Except PyErr Bool :=
  match convert_key_to_cstring k with
  | none => .error .ValueError
  | some cs =>
    match pystr_to_pfx cs with
    | none => .error .ValueError
    | some p =>
      match patricia_search_exact t p with
      | some _ => .ok true
      | none => .ok false

/-- Well-formedness of the modelled tree state: the stored keys are
pairwise distinct (spec §3: exactly one real node per distinct pair) and
the incremental counter equals the number of real nodes. -/
def Wf {V : Type} (t : PTree V) : Prop :=
  (t.entries.map Prod.fst).Nodup ∧ t.num_active_node = t.entries.length

/-- The engine's node graph, modelled from the spec §3: a node holds an
optional stored prefix (`none` for a pure glue node, `some` for a real
node; pytricia.c tests `node->prefix`) and exclusively owned left and
right children; `leaf` stands for an absent child (a NULL pointer). -/
inductive PTG where
  | leaf : PTG
  | node : Option Pfx → PTG → PTG → PTG
deriving DecidableEq

/-- Number of nodes of a graph. -/
def PTG.size : PTG → Nat
  | .leaf => 0
  | .node _ l r => 1 + l.size + r.size

/-- Total node count of the cursor's pending stack. -/
def stackSize (stk : List PTG) : Nat := (stk.map PTG.size).sum

/-- The real-node prefixes of a graph in pre-order (node, left, right):
each real node contributes its prefix exactly once, glue nodes contribute
nothing. -/
def realPreorder : PTG → List Pfx
  | .leaf => []
  | .node p l r =>
    (match p with | some q => [q] | none => []) ++ realPreorder l ++ realPreorder r

/-- From src `pytriciaiter_next` (pytricia.c lines 485-520): one call of
the iterator.  State is the next-node pointer `m_Xrn` and the explicit
pending stack; the call loops — take the current node, advance the state
(push the right child and go left, else go right, else pop, else finish),
and hand back the current node's prefix when it is a real node, repeating
transparently over glue nodes; with no current node it signals
StopIteration (`none`) and leaves the state as it is. -/
def iterNext : PTG → List PTG → Option Pfx × (PTG × List PTG)
  | .leaf, stk => (none, (.leaf, stk))
  | .node p l r, stk =>
    match l, r, stk with
    | .node pl ll rl, .node pr lr rr, s =>
      match p with
      | some q => (some q, (.node pl ll rl, .node pr lr rr :: s))
      | none => iterNext (.node pl ll rl) (.node pr lr rr :: s)
    | .node pl ll rl, .leaf, s =>
      match p with
      | some q => (some q, (.node pl ll rl, s))
      | none => iterNext (.node pl ll rl) s
    | .leaf, .node pr lr rr, s =>
      match p with
      | some q => (some q, (.node pr lr rr, s))
      | none => iterNext (.node pr lr rr) s
    | .leaf, .leaf, t :: rest =>
      match p with
      | some q => (some q, (t, rest))
      | none => iterNext t rest
    | .leaf, .leaf, [] =>
      match p with
      | some q => (some q, (.leaf, []))
      | none => (none, (.leaf, []))
termination_by rn stk => rn.size + stackSize stk
decreasing_by
  all_goals simp [PTG.size, stackSize]
  all_goals omega

/-- The whole sequence of values a fresh run of `pytriciaiter_next` calls
produces from a given state, in order, until StopIteration. -/
def iterRun : PTG → List PTG → List Pfx
  | .leaf, _ => []
  | .node p l r, stk =>
    let out : List Pfx := match p with | some q => [q] | none => []
    match l, r, stk with
    | .node pl ll rl, .node pr lr rr, s =>
      out ++ iterRun (.node pl ll rl) (.node pr lr rr :: s)
    | .node pl ll rl, .leaf, s => out ++ iterRun (.node pl ll rl) s
    | .leaf, .node pr lr rr, s => out ++ iterRun (.node pr lr rr) s
    | .leaf, .leaf, t :: rest => out ++ iterRun t rest
    | .leaf, .leaf, [] => out
termination_by rn stk => rn.size + stackSize stk
decreasing_by
  all_goals simp [PTG.size, stackSize]
  all_goals omega

/-- C1: in the concrete scenario where `10.0.0.0/8 -> "A"`,
`10.1.0.0/16 -> "B"` and `10.1.1.0/24 -> "C"` are inserted into a fresh
tree, longest-prefix lookup (subscript / find_best) returns "C" for
`10.1.1.5/32`, "B" for `10.1.2.5/32`, "A" for `10.2.0.0/32`, reports
not-found (KeyError) for `11.0.0.0/32`, and after deleting `10.1.0.0/16`
the lookup of `10.1.2.5/32` returns "A" (fallback to the next-less-specific
covering prefix). -/
theorem lpm_concrete_scenario :
    let t0 : PTree String := emptyTree String 32
    let r1 := pytricia_assign_subscript t0 (.str "10.0.0.0/8") "A"
    let r2 := pytricia_assign_subscript r1.1 (.str "10.1.0.0/16") "B"
    let r3 := pytricia_assign_subscript r2.1 (.str "10.1.1.0/24") "C"
    let d := pytricia_internal_delete r3.1 (.str "10.1.0.0/16")
    r1.2 = none ∧ r2.2 = none ∧ r3.2 = none ∧
    pytricia_subscript r3.1 (.str "10.1.1.5/32") = .ok "C" ∧
    pytricia_subscript r3.1 (.str "10.1.2.5/32") = .ok "B" ∧
    pytricia_subscript r3.1 (.str "10.2.0.0/32") = .ok "A" ∧
    pytricia_subscript r3.1 (.str "11.0.0.0/32") = .error .KeyError ∧
    d.2 = none ∧
    pytricia_subscript d.1 (.str "10.1.2.5/32") = .ok "A" := by
  decide

/-- A run of the cursor from a state whose pending stack holds no NULL
entry, and whose next-node pointer is NULL only with an empty stack (both
hold for every state the cursor can reach from a fresh start), produces
the pre-order list of real prefixes of the next node followed by those of
every stacked subtree. -/
theorem iterRun_realPreorder :
    ∀ (rn : PTG) (stk : List PTG), (rn = .leaf → stk = []) →
      (∀ x ∈ stk, x ≠ PTG.leaf) →
      iterRun rn stk = realPreorder rn ++ (stk.map realPreorder).flatten := by
  intro rn stk
  induction rn, stk using iterRun.induct with
  | case1 stk =>
    intro h1 _
    rw [h1 rfl]
    simp [iterRun, realPreorder]
  | case2 p pl ll rl pr lr rr s ih =>
    intro _ h2
    have ih2 := ih (fun h => nomatch h)
      (fun x hx => by
        rcases List.mem_cons.mp hx with h | h
        · rw [h]; intro hc; nomatch hc
        · exact h2 x h)
    cases p <;> simp [iterRun, realPreorder, ih2, List.append_assoc]
  | case3 p pl ll rl s ih =>
    intro _ h2
    have ih2 := ih (fun h => nomatch h) h2
    cases p <;> simp [iterRun, realPreorder, ih2, List.append_assoc]
  | case4 p pr lr rr s ih =>
    intro _ h2
    have ih2 := ih (fun h => nomatch h) h2
    cases p <;> simp [iterRun, realPreorder, ih2, List.append_assoc]
  | case5 p t rest ih =>
    intro _ h2
    have ih2 := ih (fun h => absurd h (h2 t (List.mem_cons_self t rest)))
      (fun x hx => h2 x (List.mem_cons_of_mem t hx))
    cases p <;> simp [iterRun, realPreorder, ih2, List.append_assoc]
  | case6 p =>
    intro _ _
    cases p <;> simp [iterRun, realPreorder]

/-- Each run is exactly the sequence of values successive
`pytriciaiter_next` calls produce: the run of a state is empty when the
call signals StopIteration, and otherwise is the produced value followed
by the run of the state the call leaves behind. -/
theorem iterRun_eq_iterNext :
    ∀ (rn : PTG) (stk : List PTG),
      iterRun rn stk =
        (match iterNext rn stk with
         | (some q, s) => q :: iterRun s.1 s.2
         | (none, _) => []) := by
  intro rn stk
  induction rn, stk using iterNext.induct with
  | case1 stk => simp [iterRun, iterNext]
  | case2 pl ll rl pr lr rr s q => simp [iterRun, iterNext]
  | case3 pl ll rl pr lr rr s ih =>
    simp only [iterRun, iterNext]
    exact ih
  | case4 pl ll rl s q => simp [iterRun, iterNext]
  | case5 pl ll rl s ih =>
    simp only [iterRun, iterNext]
    exact ih
  | case6 pr lr rr s q => simp [iterRun, iterNext]
  | case7 pr lr rr s ih =>
    simp only [iterRun, iterNext]
    exact ih
  | case8 t rest q => simp [iterRun, iterNext]
  | case9 t rest ih =>
    simp only [iterRun, iterNext]
    exact ih
  | case10 q => simp [iterRun, iterNext]
  | case11 => simp [iterRun, iterNext]

/-- C3: a freshly created iterator (next-node pointer at the tree head,
empty pending stack) yields exactly the real nodes' prefixes, each exactly
once, in pre-order — glue nodes are skipped transparently and never
surfaced — and once the next-node pointer is NULL the call signals
StopIteration without changing the state, so every subsequent call
signals StopIteration again. -/
theorem iterator_yields_real_preorder (t : PTG) :
    iterRun t [] = realPreorder t ∧
    (∀ stk, iterNext PTG.leaf stk = (none, (PTG.leaf, stk))) ∧
    (∀ (rn : PTG) (stk : List PTG),
       iterRun rn stk =
         (match iterNext rn stk with
          | (some q, s) => q :: iterRun s.1 s.2
          | (none, _) => [])) := by
  refine ⟨?_, fun stk => by simp [iterNext], iterRun_eq_iterNext⟩
  have h := iterRun_realPreorder t [] (fun _ => rfl) (fun x hx => nomatch hx)
  simpa using h

/-- Replacing the value at every entry whose key matches leaves the key
list unchanged. -/
theorem map_fst_replace {V : Type} (l : List (Pfx × V)) (kk : Pfx) (v : V) :
    (l.map (fun e => if e.1 == kk then (e.1, v) else e)).map Prod.fst
      = l.map Prod.fst := by
  induction l with
  | nil => rfl
  | cons a l ih =>
    simp only [List.map_cons]
    rw [ih]
    cases ha : a.1 == kk <;> simp [ha]

/-- After replacing the value at the matching entries, the first matching
entry carries the new value. -/
theorem find?_replace {V : Type} (l : List (Pfx × V)) (kk : Pfx) (v : V)
    (e0 : Pfx × V) (h : l.find? (fun e => e.1 == kk) = some e0) :
    (l.map (fun e => if e.1 == kk then (e.1, v) else e)).find?
        (fun e => e.1 == kk) = some (e0.1, v) := by
  induction l with
  | nil => nomatch h
  | cons a l ih =>
    cases ha : a.1 == kk with
    | true =>
      simp only [List.find?_cons, ha] at h
      cases h
      have hak : e0.1 = kk := eq_of_beq ha
      simp [List.find?_cons, ha, hak]
    | false =>
      simp only [List.find?_cons, ha] at h
      have hfa : (if (a.1 == kk : Bool) then ((a.1, v) : Pfx × V) else a) = a := by
        rw [if_neg]
        simp [ha]
      rw [List.map_cons, hfa, List.find?_cons, ha]
      exact ih h

/-- With pairwise-distinct keys, filtering out one present key removes
exactly one entry. -/
theorem filter_out_key_length {V : Type} (l : List (Pfx × V)) (kk : Pfx)
    (hnd : (l.map Prod.fst).Nodup) (e0 : Pfx × V) (hmem : e0 ∈ l)
    (hk : e0.1 = kk) :
    (l.filter (fun e => !(e.1 == kk))).length + 1 = l.length := by
  induction l with
  | nil => nomatch hmem
  | cons a l ih =>
    simp only [List.map_cons, List.nodup_cons] at hnd
    cases ha : a.1 == kk with
    | true =>
      have hak : a.1 = kk := eq_of_beq ha
      have hall : ∀ e ∈ l, (!(e.1 == kk)) = true := by
        intro e he
        have hne : e.1 ≠ a.1 := by
          intro hc
          exact hnd.1 (hc ▸ List.mem_map_of_mem Prod.fst he)
        have hnk : e.1 ≠ kk := hak ▸ hne
        simp [hnk]
      rw [List.filter_cons_of_neg (by simp [ha]), List.filter_eq_self.mpr hall]
      simp
    | false =>
      have hmem2 : e0 ∈ l := by
        rcases List.mem_cons.mp hmem with hh | hh
        · exfalso
          have : a.1 = kk := hh ▸ hk
          simp [this] at ha
        · exact hh
      rw [List.filter_cons_of_pos (by simp [ha])]
      have := ih hnd.2 hmem2
      simp only [List.length_cons]
      omega

/-- The keys of a filtered entry list stay pairwise distinct. -/
theorem nodup_fst_filter {V : Type} (l : List (Pfx × V)) (pr : Pfx × V → Bool)
    (h : (l.map Prod.fst).Nodup) : ((l.filter pr).map Prod.fst).Nodup :=
  List.Nodup.sublist ((List.filter_sublist l).map Prod.fst) h

/-- The best-candidate scan started from a remembered candidate always
ends with a candidate. -/
theorem foldl_bestStep_some {V : Type} :
    ∀ (l : List (Pfx × V)) (a : Pfx × V), ∃ b, l.foldl bestStep (some a) = some b := by
  intro l
  induction l with
  | nil => exact fun a => ⟨a, rfl⟩
  | cons e l ih =>
    intro a
    simp only [List.foldl_cons, bestStep]
    exact ih _

/-- The best-candidate scan reports absence exactly on an empty candidate
list. -/
theorem bestFold_eq_none_iff {V : Type} (l : List (Pfx × V)) :
    bestFold l = none ↔ l = [] := by
  cases l with
  | nil => simp [bestFold]
  | cons e l =>
    simp only [bestFold, List.foldl_cons]
    have : bestStep none e = some e := rfl
    rw [this]
    obtain ⟨b, hb⟩ := foldl_bestStep_some l e
    simp [hb]

/-- Best-match search reports absence exactly when no stored prefix
covers the query. -/
theorem search_best_none_iff {V : Type} (t : PTree V) (q : Pfx) :
    patricia_search_best t q = none ↔ ∀ e ∈ t.entries, covers e.1 q = false := by
  rw [patricia_search_best, bestFold_eq_none_iff, List.filter_eq_nil_iff]
  constructor
  · intro h e he
    have := h e he
    simpa using this
  · intro h e he
    simp [h e he]

/-- The normalized key of a prefix covers that prefix. -/
theorem covers_pfxNorm (p : Pfx) : covers (pfxNorm p) p = true := by
  simp [covers, pfxNorm]

/-- C2: count()/len() returns the number of is_real (caller-inserted,
not-yet-deleted) nodes: the walk count of `pytricia_length` equals the
engine's incrementally maintained `num_active_node`; a fresh tree counts
0, inserting a new pair adds exactly 1, re-inserting a present pair adds
0, removing a present pair subtracts exactly 1, and well-formedness is
preserved — so the count equals the number of distinct (bits, bitlen)
pairs inserted minus those deleted. -/
theorem count_real_nodes {V : Type} (t : PTree V) (h : Wf t) :
    pytricia_length t = t.num_active_node ∧
    (∀ mb, Wf (emptyTree V mb) ∧ pytricia_length (emptyTree V mb) = 0) ∧
    (∀ p v, Wf (pat_insert t p v)) ∧
    (∀ p v, patricia_search_exact t p = none →
       (pat_insert t p v).num_active_node = t.num_active_node + 1) ∧
    (∀ p v e0, patricia_search_exact t p = some e0 →
       (pat_insert t p v).num_active_node = t.num_active_node) ∧
    (∀ p e0, patricia_search_exact t p = some e0 →
       (patricia_remove t p).num_active_node + 1 = t.num_active_node ∧
       Wf (patricia_remove t p)) := by
  refine ⟨h.2.symm, fun mb => ⟨⟨List.nodup_nil, rfl⟩, rfl⟩, ?_, ?_, ?_, ?_⟩
  · intro p v
    by_cases hf : ((t.entries.find? (fun e => e.1 == pfxNorm p)).isSome) = true
    · refine ⟨?_, ?_⟩
      · show ((pat_insert t p v).entries.map Prod.fst).Nodup
        rw [pat_insert, if_pos hf]
        show ((t.entries.map _).map Prod.fst).Nodup
        rw [map_fst_replace]
        exact h.1
      · rw [pat_insert, if_pos hf]
        simpa using h.2
    · have hnone : t.entries.find? (fun e => e.1 == pfxNorm p) = none := by
        cases hx : t.entries.find? (fun e => e.1 == pfxNorm p) with
        | none => rfl
        | some e => rw [hx] at hf; exact absurd rfl hf
      have hnotmem : pfxNorm p ∉ t.entries.map Prod.fst := by
        intro hm
        rcases List.mem_map.mp hm with ⟨e, he, hke⟩
        exact List.find?_eq_none.mp hnone e he (by simp [hke])
      refine ⟨?_, ?_⟩
      · show ((pat_insert t p v).entries.map Prod.fst).Nodup
        rw [pat_insert, if_neg hf]
        show ((t.entries ++ [(pfxNorm p, v)]).map Prod.fst).Nodup
        simp only [List.map_append, List.map_cons, List.map_nil]
        rw [List.nodup_append]
        refine ⟨h.1, List.nodup_singleton _, ?_⟩
        intro a ha hb
        rw [List.mem_singleton] at hb
        exact hnotmem (hb ▸ ha)
      · rw [pat_insert, if_neg hf]
        simp [h.2]
  · intro p v hnone
    rw [patricia_search_exact] at hnone
    rw [pat_insert, if_neg (by rw [hnone]; simp)]
  · intro p v e0 hsome
    rw [patricia_search_exact] at hsome
    rw [pat_insert, if_pos (by rw [hsome]; rfl)]
  · intro p e0 hsome
    rw [patricia_search_exact] at hsome
    have hmem := List.mem_of_find?_eq_some hsome
    have hp := List.find?_some (p := fun (e : Pfx × V) => e.1 == pfxNorm p) hsome
    have hkey : e0.1 = pfxNorm p := eq_of_beq hp
    have hlen := filter_out_key_length t.entries (pfxNorm p) h.1 e0 hmem hkey
    have hcnt := h.2
    constructor
    · simp only [patricia_remove]
      omega
    · exact ⟨nodup_fst_filter _ _ h.1, by simp only [patricia_remove]; omega⟩

/-- Witness for C2: the well-formedness hypothesis holds for a concrete
two-entry tree, whose walk count is its maintained counter, 2. -/
theorem count_real_nodes_witness :
    Wf (⟨[((167772160, 8), "A"), ((167837696, 16), "B")], 2, 32⟩ : PTree String) ∧
    pytricia_length (⟨[((167772160, 8), "A"), ((167837696, 16), "B")], 2, 32⟩ : PTree String) = 2 :=
  ⟨⟨by decide, by decide⟩,
   (count_real_nodes (⟨[((167772160, 8), "A"), ((167837696, 16), "B")], 2, 32⟩ : PTree String)
      ⟨by decide, by decide⟩).1⟩

/-- C4: inserting a (bits, bitlen) pair that is already present (insert /
assignment) overwrites the stored value in place at the existing node —
the key list is unchanged, exact lookup afterwards yields the new value —
and count() is unchanged. -/
theorem reinsert_overwrites_in_place {V : Type} (t : PTree V) (p : Pfx)
    (v : V) (e0 : Pfx × V) (h : patricia_search_exact t p = some e0) :
    (pat_insert t p v).entries.map Prod.fst = t.entries.map Prod.fst ∧
    patricia_search_exact (pat_insert t p v) p = some (e0.1, v) ∧
    (pat_insert t p v).num_active_node = t.num_active_node ∧
    pytricia_length (pat_insert t p v) = pytricia_length t ∧
    (∀ (k : PyKey) (cs : List Char), convert_key_to_cstring k = some cs →
       pystr_to_pfx cs = some p →
       pytricia_assign_subscript t k v = (pat_insert t p v, none)) := by
  rw [patricia_search_exact] at h
  have hf : ((t.entries.find? (fun e => e.1 == pfxNorm p)).isSome) = true := by
    simp [h]
  refine ⟨?_, ?_, ?_, ?_, ?_⟩
  · rw [pat_insert, if_pos hf]
    exact map_fst_replace t.entries (pfxNorm p) v
  · rw [patricia_search_exact, pat_insert, if_pos hf]
    exact find?_replace t.entries (pfxNorm p) v e0 h
  · rw [pat_insert, if_pos hf]
  · rw [pytricia_length, pytricia_length, pat_insert, if_pos hf]
    simp
  · intro k cs h1 h2
    simp [pytricia_assign_subscript, h1, h2]

/-- Witness for C4: re-inserting `10.0.0.0/8` with value "A2" into a tree
already holding it keeps the key list and count and stores the new
value. -/
theorem reinsert_overwrites_in_place_witness :
    (pat_insert (⟨[((167772160, 8), "A")], 1, 32⟩ : PTree String) (167772160, 8) "A2").entries.map Prod.fst
      = [(167772160, 8)] ∧
    patricia_search_exact (pat_insert (⟨[((167772160, 8), "A")], 1, 32⟩ : PTree String) (167772160, 8) "A2")
      (167772160, 8) = some ((167772160, 8), "A2") ∧
    (pat_insert (⟨[((167772160, 8), "A")], 1, 32⟩ : PTree String) (167772160, 8) "A2").num_active_node = 1 :=
  ⟨(reinsert_overwrites_in_place (⟨[((167772160, 8), "A")], 1, 32⟩ : PTree String)
      (167772160, 8) "A2" ((167772160, 8), "A") (by decide)).1,
   (reinsert_overwrites_in_place (⟨[((167772160, 8), "A")], 1, 32⟩ : PTree String)
      (167772160, 8) "A2" ((167772160, 8), "A") (by decide)).2.1,
   (reinsert_overwrites_in_place (⟨[((167772160, 8), "A")], 1, 32⟩ : PTree String)
      (167772160, 8) "A2" ((167772160, 8), "A") (by decide)).2.2.1⟩

/-- C6: has_key is true iff the exact (address, length) pair is stored,
the `in` operator (contains) is true iff some stored prefix covers the
key; has_key true implies contains true, but not conversely. -/
theorem exact_vs_containment {V : Type} (t : PTree V) (k : PyKey)
    (cs : List Char) (p : Pfx)
    (h1 : convert_key_to_cstring k = some cs) (h2 : pystr_to_pfx cs = some p) :
    (pytricia_has_key t k = .ok true ↔ (patricia_search_exact t p).isSome = true) ∧
    (pytricia_contains t k = .ok true ↔ ∃ e ∈ t.entries, covers e.1 p = true) ∧
    (pytricia_has_key t k = .ok true → pytricia_contains t k = .ok true) ∧
    (∃ (t2 : PTree Nat) (k2 : PyKey),
       pytricia_contains t2 k2 = .ok true ∧ pytricia_has_key t2 k2 = .ok false) := by
  have hcona : pytricia_contains t k = .ok true ↔ ∃ e ∈ t.entries, covers e.1 p = true := by
    cases hb : patricia_search_best t p with
    | none =>
      have hnone := (search_best_none_iff t p).mp hb
      simp only [pytricia_contains, h1, h2, hb]
      constructor
      · intro hc; nomatch hc
      · rintro ⟨e, he, hcov⟩
        rw [hnone e he] at hcov
        nomatch hcov
    | some b =>
      simp only [pytricia_contains, h1, h2, hb]
      constructor
      · intro _
        have hne : t.entries.filter (fun e => covers e.1 p) ≠ [] := by
          intro hnil
          rw [patricia_search_best, hnil] at hb
          nomatch hb
        obtain ⟨e, he⟩ := List.exists_mem_of_ne_nil _ hne
        have := List.mem_filter.mp he
        exact ⟨e, this.1, this.2⟩
      · intro _; trivial
  refine ⟨?_, hcona, ?_, ?_⟩
  · cases hse : patricia_search_exact t p with
    | none => simp [pytricia_has_key, h1, h2, hse]
    | some e => simp [pytricia_has_key, h1, h2, hse]
  · intro hk
    cases hse : patricia_search_exact t p with
    | none => simp [pytricia_has_key, h1, h2, hse] at hk
    | some e0 =>
      rw [patricia_search_exact] at hse
      have hp := List.find?_some (p := fun (e : Pfx × V) => e.1 == pfxNorm p) hse
      have hkey : e0.1 = pfxNorm p := eq_of_beq hp
      refine hcona.mpr ⟨e0, List.mem_of_find?_eq_some hse, ?_⟩
      rw [hkey]
      exact covers_pfxNorm p
  · exact ⟨⟨[((167772160, 8), 0)], 1, 32⟩, .str "10.1.1.1", by decide, by decide⟩

/-- Witness for C6: on a tree holding only `10.0.0.0/8`, the covered
address `10.1.1.1` is contained (in) but has_key is false, and has_key of
the stored pair itself is true. -/
theorem exact_vs_containment_witness :
    pytricia_contains (⟨[((167772160, 8), 0)], 1, 32⟩ : PTree Nat) (.str "10.1.1.1") = .ok true ∧
    pytricia_has_key (⟨[((167772160, 8), 0)], 1, 32⟩ : PTree Nat) (.str "10.1.1.1") = .ok false ∧
    pytricia_has_key (⟨[((167772160, 8), 0)], 1, 32⟩ : PTree Nat) (.str "10.0.0.0/8") = .ok true :=
  ⟨((exact_vs_containment (⟨[((167772160, 8), 0)], 1, 32⟩ : PTree Nat) (.str "10.1.1.1")
      ("10.1.1.1".toList) (167837953, 32) (by decide) (by decide)).2.1).mpr
      ⟨((167772160, 8), 0), by decide, by decide⟩,
   by decide,
   ((exact_vs_containment (⟨[((167772160, 8), 0)], 1, 32⟩ : PTree Nat) (.str "10.0.0.0/8")
      ("10.0.0.0/8".toList) (167772160, 8) (by decide) (by decide)).1).mpr (by decide)⟩

/-- C5: delete performs an exact-match lookup first; when no exact
(address, length) entry is present it reports KeyError rather than
silently doing nothing, and in that error case the tree's contents are
unchanged; when an exact entry is present the node is removed. -/
theorem delete_requires_exact {V : Type} (t : PTree V) (k : PyKey)
    (cs : List Char) (p : Pfx)
    (h1 : convert_key_to_cstring k = some cs) (h2 : pystr_to_pfx cs = some p) :
    (patricia_search_exact t p = none →
       pytricia_internal_delete t k = (t, some .KeyError)) ∧
    (∀ e, patricia_search_exact t p = some e →
       pytricia_internal_delete t k = (patricia_remove t p, none)) := by
  constructor
  · intro h3
    simp [pytricia_internal_delete, h1, h2, h3]
  · intro e h3
    simp [pytricia_internal_delete, h1, h2, h3]

/-- Witness for C5: a stored `10.0.0.0/8` covers `10.1.2.0/24` but is not
an exact match for it, so deleting `10.1.2.0/24` raises KeyError and
leaves the tree unchanged. -/
theorem delete_requires_exact_witness :
    pytricia_internal_delete (⟨[((167772160, 8), "A")], 1, 32⟩ : PTree String)
        (.str "10.1.2.0/24")
      = ((⟨[((167772160, 8), "A")], 1, 32⟩ : PTree String), some .KeyError) :=
  (delete_requires_exact (⟨[((167772160, 8), "A")], 1, 32⟩ : PTree String)
    (.str "10.1.2.0/24") ("10.1.2.0/24".toList) (167838208, 24)
    (by decide) (by decide)).1 (by decide)

/-- C7: for every operation taking a key, a key the codec fails to parse
produces ValueError, distinct from the missing-key outcome: a malformed
key is never reported as merely not found, and a well-formed absent key is
reported as KeyError (or absence), never as a parse failure. -/
theorem malformed_vs_missing {V : Type} (t : PTree V) (k : PyKey) :
    (convert_key_to_cstring k = none →
       pytricia_subscript t k = .error .ValueError ∧
       pytricia_internal_delete t k = (t, some .ValueError) ∧
       (∀ v, pytricia_assign_subscript t k v = (t, some .ValueError)) ∧
       (∀ d, pytricia_get t k d = .error .ValueError) ∧
       pytricia_contains t k = .error .ValueError ∧
       pytricia_has_key t k = .error .ValueError) ∧
    (∀ cs, convert_key_to_cstring k = some cs → pystr_to_pfx cs = none →
       pytricia_subscript t k = .error .ValueError ∧
       pytricia_internal_delete t k = (t, some .ValueError) ∧
       (∀ v, pytricia_assign_subscript t k v = (t, some .ValueError)) ∧
       (∀ d, pytricia_get t k d = .error .ValueError) ∧
       pytricia_contains t k = .error .ValueError ∧
       pytricia_has_key t k = .error .ValueError) ∧
    (∀ cs p, convert_key_to_cstring k = some cs → pystr_to_pfx cs = some p →
       (patricia_search_best t p = none →
          pytricia_subscript t k = .error .KeyError) ∧
       (patricia_search_exact t p = none →
          pytricia_internal_delete t k = (t, some .KeyError))) := by
  refine ⟨fun h1 => ?_, fun cs h1 h2 => ?_, fun cs p h1 h2 => ⟨fun h3 => ?_, fun h3 => ?_⟩⟩
  · exact ⟨by simp [pytricia_subscript, h1],
      by simp [pytricia_internal_delete, h1],
      fun v => by simp [pytricia_assign_subscript, h1],
      fun d => by simp [pytricia_get, h1],
      by simp [pytricia_contains, h1],
      by simp [pytricia_has_key, h1]⟩
  · exact ⟨by simp [pytricia_subscript, h1, h2],
      by simp [pytricia_internal_delete, h1, h2],
      fun v => by simp [pytricia_assign_subscript, h1, h2],
      fun d => by simp [pytricia_get, h1, h2],
      by simp [pytricia_contains, h1, h2],
      by simp [pytricia_has_key, h1, h2]⟩
  · simp [pytricia_subscript, h1, h2, h3]
  · simp [pytricia_internal_delete, h1, h2, h3]

/-- Witness for C7: a non-string non-integer key and an unparseable text
key raise ValueError on an empty tree, while the well-formed absent key
`1.2.3.4` raises KeyError on lookup and delete. -/
theorem malformed_vs_missing_witness :
    pytricia_subscript (emptyTree String 32) .other = .error .ValueError ∧
    pytricia_subscript (emptyTree String 32) (.str "bogus") = .error .ValueError ∧
    pytricia_subscript (emptyTree String 32) (.str "1.2.3.4") = .error .KeyError ∧
    pytricia_internal_delete (emptyTree String 32) (.str "1.2.3.4")
      = (emptyTree String 32, some .KeyError) :=
  ⟨(malformed_vs_missing (emptyTree String 32) .other).1 (by decide) |>.1,
   ((malformed_vs_missing (emptyTree String 32) (.str "bogus")).2.1
      ("bogus".toList) (by decide) (by decide)).1,
   ((malformed_vs_missing (emptyTree String 32) (.str "1.2.3.4")).2.2
      ("1.2.3.4".toList) (16909060, 32) (by decide) (by decide)).1 (by decide),
   ((malformed_vs_missing (emptyTree String 32) (.str "1.2.3.4")).2.2
      ("1.2.3.4".toList) (16909060, 32) (by decide) (by decide)).2 (by decide)⟩

/-- C8: construction takes an optional maximum-bit-length parameter
defaulting to 32; any value outside [0, 128] inclusive is rejected with
ValueError at construction time, and every value inside that range is
accepted. -/
theorem init_validates_maxbits (V : Type) :
    (∀ n : Int, 0 ≤ n → n ≤ 128 →
       pytricia_init V (some n) = .ok (emptyTree V n.toNat)) ∧
    (∀ n : Int, n < 0 ∨ 128 < n →
       pytricia_init V (some n) = .error .ValueError) ∧
    pytricia_init V none = .ok (emptyTree V 32) := by
  refine ⟨fun n hn1 hn2 => ?_, fun n hn => ?_, rfl⟩
  · have : ¬(n < 0 ∨ (PATRICIA_MAXBITS : Int) < n) := by
      simp only [PATRICIA_MAXBITS]
      omega
    simp [pytricia_init, this]
  · have : n < 0 ∨ (PATRICIA_MAXBITS : Int) < n := by
      simp only [PATRICIA_MAXBITS]
      omega
    simp [pytricia_init, this]

/-- Witness for C8: 0 and 128 are accepted, 129 and -1 rejected. -/
theorem init_validates_maxbits_witness :
    pytricia_init Nat (some 0) = .ok (emptyTree Nat 0) ∧
    pytricia_init Nat (some 128) = .ok (emptyTree Nat 128) ∧
    pytricia_init Nat (some 129) = .error .ValueError ∧
    pytricia_init Nat (some (-1)) = .error .ValueError :=
  ⟨(init_validates_maxbits Nat).1 0 (by decide) (by decide),
   (init_validates_maxbits Nat).1 128 (by decide) (by decide),
   (init_validates_maxbits Nat).2.1 129 (Or.inr (by decide)),
   (init_validates_maxbits Nat).2.1 (-1) (Or.inl (by decide))⟩

/-- C10: get with no default returns None (not a KeyError) when no stored
prefix covers the key, get with a default returns that default, and in
both forms a covering prefix's value is returned when one exists; the
subscript operator instead raises KeyError on absence. -/
theorem get_returns_default {V : Type} (t : PTree V) (k : PyKey)
    (cs : List Char) (p : Pfx)
    (h1 : convert_key_to_cstring k = some cs) (h2 : pystr_to_pfx cs = some p) :
    (patricia_search_best t p = none →
       pytricia_get t k none = .ok none ∧
       (∀ d, pytricia_get t k (some d) = .ok (some d)) ∧
       pytricia_subscript t k = .error .KeyError) ∧
    (∀ e, patricia_search_best t p = some e →
       (∀ d, pytricia_get t k d = .ok (some e.2)) ∧
       pytricia_subscript t k = .ok e.2) := by
  refine ⟨fun h3 => ⟨?_, fun d => ?_, ?_⟩, fun e h3 => ⟨fun d => ?_, ?_⟩⟩
  · simp [pytricia_get, h1, h2, h3]
  · simp [pytricia_get, h1, h2, h3]
  · simp [pytricia_subscript, h1, h2, h3]
  · simp [pytricia_get, h1, h2, h3]
  · simp [pytricia_subscript, h1, h2, h3]

/-- Witness for C10: on a tree holding only `10.0.0.0/8 -> "A"`, the
uncovered key `99.0.0.0` yields None / the default "D" from get and
KeyError from subscript, while the covered key `10.1.1.1` yields "A". -/
theorem get_returns_default_witness :
    pytricia_get (⟨[((167772160, 8), "A")], 1, 32⟩ : PTree String)
        (.str "99.0.0.0") none = .ok none ∧
    pytricia_get (⟨[((167772160, 8), "A")], 1, 32⟩ : PTree String)
        (.str "99.0.0.0") (some "D") = .ok (some "D") ∧
    pytricia_subscript (⟨[((167772160, 8), "A")], 1, 32⟩ : PTree String)
        (.str "99.0.0.0") = .error .KeyError ∧
    pytricia_get (⟨[((167772160, 8), "A")], 1, 32⟩ : PTree String)
        (.str "10.1.1.1") none = .ok (some "A") :=
  ⟨((get_returns_default (⟨[((167772160, 8), "A")], 1, 32⟩ : PTree String)
      (.str "99.0.0.0") ("99.0.0.0".toList) (1660944384, 32)
      (by decide) (by decide)).1 (by decide)).1,
   ((get_returns_default (⟨[((167772160, 8), "A")], 1, 32⟩ : PTree String)
      (.str "99.0.0.0") ("99.0.0.0".toList) (1660944384, 32)
      (by decide) (by decide)).1 (by decide)).2.1 "D",
   ((get_returns_default (⟨[((167772160, 8), "A")], 1, 32⟩ : PTree String)
      (.str "99.0.0.0") ("99.0.0.0".toList) (1660944384, 32)
      (by decide) (by decide)).1 (by decide)).2.2,
   (((get_returns_default (⟨[((167772160, 8), "A")], 1, 32⟩ : PTree String)
      (.str "10.1.1.1") ("10.1.1.1".toList) (167837953, 32)
      (by decide) (by decide)).2 ((167772160, 8), "A") (by decide)).1 none)⟩

set_option maxRecDepth 8192 in
/-- Facts about the decimal rendering of one byte: it parses back to the
byte, contains neither a dot nor a slash, and is at most 3 characters. -/
theorem decByte_facts : ∀ b : Nat, b < 256 →
    parseDec255 (decByte b) = some b ∧ '.' ∉ decByte b ∧ '/' ∉ decByte b ∧
    (decByte b).length ≤ 3 := by decide

/-- Splitting a dot-free string at dots gives the single group. -/
theorem splitOnDot_no_dot : ∀ (xs : List Char), '.' ∉ xs → splitOnDot xs = [xs] := by
  intro xs h
  induction xs with
  | nil => rfl
  | cons c cs ih =>
    simp only [List.mem_cons, not_or] at h
    have hc : ¬(c = '.') := fun hh => h.1 hh.symm
    simp [splitOnDot, hc, ih h.2]

/-- Splitting at dots after a dot-free group separates that group. -/
theorem splitOnDot_append : ∀ (xs ys : List Char), '.' ∉ xs →
    splitOnDot (xs ++ '.' :: ys) = xs :: splitOnDot ys := by
  intro xs ys h
  induction xs with
  | nil => simp [splitOnDot]
  | cons c cs ih =>
    simp only [List.mem_cons, not_or] at h
    have hc : ¬(c = '.') := fun hh => h.1 hh.symm
    simp [splitOnDot, hc, ih h.2]

/-- A slash-free string has no slash to split at. -/
theorem breakSlash_no_slash : ∀ (xs : List Char), '/' ∉ xs →
    breakSlash xs = (xs, none) := by
  intro xs h
  induction xs with
  | nil => rfl
  | cons c cs ih =>
    simp only [List.mem_cons, not_or] at h
    have hc : ¬(c = '/') := fun hh => h.1 hh.symm
    simp [breakSlash, hc, ih h.2]

/-- Splitting at the first slash after a slash-free part separates it. -/
theorem breakSlash_append : ∀ (xs ys : List Char), '/' ∉ xs →
    breakSlash (xs ++ '/' :: ys) = (xs, some ys) := by
  intro xs ys h
  induction xs with
  | nil => simp [breakSlash]
  | cons c cs ih =>
    simp only [List.mem_cons, not_or] at h
    have hc : ¬(c = '/') := fun hh => h.1 hh.symm
    simp [breakSlash, hc, ih h.2]

/-- The rendered dotted quad contains no slash. -/
theorem ntop_no_slash (a : Nat) : '/' ∉ inet_ntop_v4 a := by
  have hb3 := decByte_facts (a / 16777216 % 256) (Nat.mod_lt _ (by norm_num))
  have hb2 := decByte_facts (a / 65536 % 256) (Nat.mod_lt _ (by norm_num))
  have hb1 := decByte_facts (a / 256 % 256) (Nat.mod_lt _ (by norm_num))
  have hb0 := decByte_facts (a % 256) (Nat.mod_lt _ (by norm_num))
  rw [inet_ntop_v4]
  intro hmem
  simp only [List.mem_append, List.mem_cons] at hmem
  rcases hmem with h | h | h | h | h | h | h
  · exact hb3.2.2.1 h
  · exact absurd h (by decide)
  · exact hb2.2.2.1 h
  · exact absurd h (by decide)
  · exact hb1.2.2.1 h
  · exact absurd h (by decide)
  · exact hb0.2.2.1 h

/-- The rendered dotted quad fits the 31-character address budget. -/
theorem ntop_length (a : Nat) : (inet_ntop_v4 a).length < 32 := by
  have hb3 := decByte_facts (a / 16777216 % 256) (Nat.mod_lt _ (by norm_num))
  have hb2 := decByte_facts (a / 65536 % 256) (Nat.mod_lt _ (by norm_num))
  have hb1 := decByte_facts (a / 256 % 256) (Nat.mod_lt _ (by norm_num))
  have hb0 := decByte_facts (a % 256) (Nat.mod_lt _ (by norm_num))
  rw [inet_ntop_v4]
  simp only [List.length_append, List.length_cons]
  have h3 := hb3.2.2.2
  have h2 := hb2.2.2.2
  have h1 := hb1.2.2.2
  have h0 := hb0.2.2.2
  omega

/-- Parsing the rendered dotted quad of any value recovers the value's
low 32 bits. -/
theorem aton_ntop (a : Nat) :
    inet_aton_model (inet_ntop_v4 a) = some (a % 4294967296) := by
  have hb3 := decByte_facts (a / 16777216 % 256) (Nat.mod_lt _ (by norm_num))
  have hb2 := decByte_facts (a / 65536 % 256) (Nat.mod_lt _ (by norm_num))
  have hb1 := decByte_facts (a / 256 % 256) (Nat.mod_lt _ (by norm_num))
  have hb0 := decByte_facts (a % 256) (Nat.mod_lt _ (by norm_num))
  have hsplit : splitOnDot (inet_ntop_v4 a) =
      [decByte (a / 16777216 % 256), decByte (a / 65536 % 256),
       decByte (a / 256 % 256), decByte (a % 256)] := by
    rw [inet_ntop_v4]
    rw [splitOnDot_append _ _ hb3.2.1, splitOnDot_append _ _ hb2.2.1,
      splitOnDot_append _ _ hb1.2.1, splitOnDot_no_dot _ hb0.2.1]
  simp only [inet_aton_model, hsplit, hb3.1, hb2.1, hb1.1, hb0.1,
    Option.some.injEq]
  omega

/-- Parsing the codec's rendering of an integer key gives the host prefix
of the value's low 32 bits with mask length 32. -/
theorem pystr_ntop (a : Nat) :
    pystr_to_pfx (inet_ntop_with_pfx a) = some (a % 4294967296, 32) := by
  have hatoi : ((c_atoi ['3', '2']) % 65536).toNat = 32 := by decide
  rw [pystr_to_pfx, parse_cidr, inet_ntop_with_pfx]
  rw [show ('/' :: '3' :: '2' :: [] : List Char) = '/' :: ['3', '2'] from rfl]
  rw [breakSlash_append _ _ (ntop_no_slash a)]
  simp only [if_pos (ntop_length a), hatoi, aton_ntop, Option.map_some,
    make_pfx]
  rfl

/-- C9: a string key with no slash separator, and every integer key, is
treated as a full 32-bit host prefix: the mask length defaults to 32, and
an integer key is rendered with an explicit "/32" suffix; concretely
"10.0.0.1" denotes exactly the prefix 10.0.0.1/32, so every operation
treats the two keys identically. -/
theorem slashless_and_integer_host_keys :
    (∀ cs : List Char, '/' ∉ cs →
       parse_cidr cs = (inet_aton_model cs).map (fun a => (a, 32))) ∧
    (∀ n : Nat,
       convert_key_to_cstring (.int n) = some (inet_ntop_with_pfx (n % 4294967296)) ∧
       pystr_to_pfx (inet_ntop_with_pfx (n % 4294967296)) = some (n % 4294967296, 32)) ∧
    pystr_to_pfx ("10.0.0.1".toList) = some (167772161, 32) ∧
    pystr_to_pfx ("10.0.0.1/32".toList) = some (167772161, 32) ∧
    (∀ (t : PTree String),
       pytricia_subscript t (.str "10.0.0.1") = pytricia_subscript t (.str "10.0.0.1/32")) := by
  refine ⟨?_, ?_, by decide, by decide, ?_⟩
  · intro cs h
    rw [parse_cidr, breakSlash_no_slash cs h]
  · intro n
    refine ⟨rfl, ?_⟩
    have h3 := pystr_ntop (n % 4294967296)
    have hmm : (n % 4294967296) % 4294967296 = n % 4294967296 := by omega
    rw [hmm] at h3
    exact h3
  · intro t
    have e1 : convert_key_to_cstring (.str "10.0.0.1") = some ("10.0.0.1".toList) := by
      decide
    have e2 : convert_key_to_cstring (.str "10.0.0.1/32") = some ("10.0.0.1/32".toList) := by
      decide
    have e3 : pystr_to_pfx ['1', '0', '.', '0', '.', '0', '.', '1']
        = some (167772161, 32) := by decide
    have e4 : pystr_to_pfx ['1', '0', '.', '0', '.', '0', '.', '1', '/', '3', '2']
        = some (167772161, 32) := by decide
    simp [pytricia_subscript, e1, e2, e3, e4]

/-- Witness for C9: the slash-free key "10.0.0.1" parses with mask length
32, and the integer key 167772161 round-trips as a /32 host prefix. -/
theorem slashless_and_integer_host_keys_witness :
    parse_cidr ("10.0.0.1".toList)
      = (inet_aton_model ("10.0.0.1".toList)).map (fun a => (a, 32)) ∧
    pystr_to_pfx (inet_ntop_with_pfx (167772161 % 4294967296))
      = some (167772161 % 4294967296, 32) :=
  ⟨slashless_and_integer_host_keys.1 ("10.0.0.1".toList) (by decide),
   (slashless_and_integer_host_keys.2.1 167772161).2⟩

end Pytricia
